import Mathlib

/-!
Verification development for the time-lock client (crypto-core/client-script).
The Rust source is embedded shallowly: the `f32` arithmetic of `get_threshold`
is emulated exactly with dyadic rationals over ℕ (round-to-nearest-even at 24
significand bits, normal range only — which covers every value the program can
produce from a `u64` input); chain reads are an explicit `Chain` record; the
unboundedly looping committee scan is given fuel-indexed semantics that
distinguishes normal return, panic and divergence; the missing `cryptography`
module and the external ABI encoder are modelled from the specification where
noted.
-/

namespace TimeLock

/-- A nonnegative dyadic rational `m / 2^e` (not necessarily normalized). -/
structure Dy where
  m : Nat
  e : Nat
deriving DecidableEq

/-- The rational value of a dyadic. -/
def Dy.val (a : Dy) : ℚ := (a.m : ℚ) / 2 ^ a.e

/-- Fuel-bounded binary logarithm: for `1 ≤ m < 2^fuel`, returns `L` with
`2^L ≤ m < 2^(L+1)`. Structural recursion so the kernel can evaluate it. -/
def log2f : Nat → Nat → Nat
  | 0, _ => 0
  | fuel+1, m => if 2 ≤ m then log2f fuel (m / 2) + 1 else 0

/-- Round a nonnegative dyadic to the nearest `f32`-representable value
(24 significand bits, round-to-nearest ties-to-even; normal exponent range
assumed, which all values in this development satisfy). -/
def roundF32 (a : Dy) : Dy :=
  if a.m = 0 then ⟨0, 0⟩
  else
    let L := log2f 300 a.m
    if L ≤ 23 then a
    else
      let s := L - 23
      let q := a.m / 2 ^ s
      let r := a.m % 2 ^ s
      let half := 2 ^ (s - 1)
      let q' := if half < r then q + 1
                else if r < half then q
                else if q % 2 = 0 then q else q + 1
      if s ≤ a.e then ⟨q', a.e - s⟩ else ⟨q' * 2 ^ (s - a.e), 0⟩

/-- Product of two dyadics (exact; rounding is applied separately, as the
hardware rounds the exact product once). -/
def mulDy (a b : Dy) : Dy := ⟨a.m * b.m, a.e + b.e⟩

/-- Ceiling of a nonnegative dyadic, as a natural number. -/
def ceilDy (a : Dy) : Nat := (a.m + 2 ^ a.e - 1) / 2 ^ a.e

/-- The `f32` nearest to the Rust literal `0.51`: `17112760 / 2^25`
(certified by `c051_correct` below). -/
def c051 : Dy := ⟨17112760, 25⟩

/-- Embedding of `fn get_threshold(n: u64) -> u64 { (((n as f32)*0.51).ceil()) as u64 }`:
`n` is rounded to `f32`, multiplied by the `f32` nearest `0.51` with the product
rounded once, then the (exactly representable) ceiling is taken and cast back to
an integer (the saturating cast never saturates for `u64` inputs). -/
def get_threshold (n : Nat) : Nat :=
  ceilDy (roundF32 (mulDy (roundF32 ⟨n, 0⟩) c051))

/-- The threshold of the specification: the smallest integer `≥ 0.51 n` in exact
rational arithmetic, stated over ℕ as `(51n + 99) / 100`. -/
def spec_threshold (n : Nat) : Nat := (51 * n + 99) / 100

/-! ## Committee resolution (`get_agent_list`, `get_agent_address`, `get_agent_pk`)

Chain state is an explicit record: `committeeSize` is the value of the
`committeeSize` query, `slots` is the `committee(index)` query (an address as a
natural number, `0` being the zero address), and `pkBytes` is the byte string of
the `publicKeys(address)` query.  The BLS12-381 decompression
`G1Affine::from_compressed` is an external library routine and is abstracted as
a `decode` parameter returning `Option` (`none` = the `unwrap` panics).  The
`while` loop of `get_agent_list` need not terminate, so it is given fuel-indexed
semantics: one unit of fuel per loop iteration, with exhaustion marking
divergence. -/

/-- The `Agent` struct of the source, with the pairing-group element type
abstracted as `P`. -/
structure Agent (P : Type) where
  id : Nat
  address : Nat
  pk : P
deriving DecidableEq

/-- The chain reads consumed by committee resolution. -/
structure Chain where
  committeeSize : Nat
  slots : Nat → Nat
  pkBytes : Nat → List Nat

/-- Outcome of running a possibly-panicking, possibly-diverging computation. -/
inductive Res (α : Type) where
  | ok : α → Res α
  | panic : Res α
  | diverge : Res α
deriving DecidableEq

variable {P : Type}

/-- Embedding of `get_agent_pk`: the `publicKeys` bytes are sliced to 48 bytes
(`[..48]` panics when fewer are returned) and decompressed; both the slice
panic and the `from_compressed(..).unwrap()` panic are `none`. -/
def get_agent_pk (decode : List Nat → Option P) (ch : Chain) (address : Nat) : Option P :=
  let bytes := ch.pkBytes address
  if bytes.length < 48 then none else decode (bytes.take 48)

/-- Embedding of the `while agents.len() < committee_size` loop of
`get_agent_list`: scan slot `counter`, skip zero addresses, insert
`(counter, Agent{id: counter, address, pk})` for non-zero ones, panic when the
public key fails to decode.  The accumulated map is kept as an association list
in insertion order (keys are strictly increasing, hence distinct, matching the
`HashMap` keyed by `counter`). -/
def get_agent_list_aux (decode : List Nat → Option P) (ch : Chain) :
    Nat → List (Nat × Agent P) → Nat → Res (List (Nat × Agent P))
  | 0, _, _ => .diverge
  | fuel+1, agents, counter =>
    if agents.length < ch.committeeSize then
      let address := ch.slots counter
      if address ≠ 0 then
        match get_agent_pk decode ch address with
        | none => .panic
        | some pk =>
            get_agent_list_aux decode ch fuel
              (agents ++ [(counter, ⟨counter, address, pk⟩)]) (counter + 1)
      else get_agent_list_aux decode ch fuel agents (counter + 1)
    else .ok agents

/-- Embedding of `get_agent_list`, starting from the empty map and slot `0`. -/
def get_agent_list (decode : List Nat → Option P) (ch : Chain) (fuel : Nat) :
    Res (List (Nat × Agent P)) :=
  get_agent_list_aux decode ch fuel [] 0

/-- Number of non-zero slots among indices `[counter, counter + len)`. -/
def nzFrom (ch : Chain) (counter : Nat) : Nat → Nat
  | 0 => 0
  | len+1 => (if ch.slots counter ≠ 0 then 1 else 0) + nzFrom ch (counter + 1) len

/-- Modelled from the spec: the secret-sharing evaluation points used by
`cryptography::get_k_and_alphas` (the `cryptography` module is not part of this
source tree).  §4.2: for each committee agent the evaluation point is
`x_i = agent_id`, and the call site passes `indexes = agents.keys()`. -/
def evaluationPoints (agents : List (Nat × Agent P)) : List Nat :=
  agents.map (fun p => p.1)

/-- A decode function that always succeeds (all public keys valid). -/
def decodeAll : List Nat → Option Nat := fun _ => some 7

/-- A decode function that always fails (undecodable public-key bytes). -/
def decodeNone : List Nat → Option Nat := fun _ => none

/-- Chain with one registered agent, in slot 0. -/
def chain1 : Chain := ⟨1, fun i => if i = 0 then 5 else 0, fun _ => List.replicate 48 1⟩

/-- Chain for the gap example: slots `[addr, zero, addr, zero, addr]`,
committee size 3. -/
def chain5 : Chain :=
  ⟨3, fun i => if i = 0 then 5 else if i = 2 then 7 else if i = 4 then 9 else 0,
   fun _ => List.replicate 48 1⟩

/-- Chain with committee size 2 but a single non-zero slot in total. -/
def chainBad : Chain := ⟨2, fun i => if i = 0 then 7 else 0, fun _ => List.replicate 48 1⟩

/-! ## The submitted payload (`make_data`) and its ABI round trip

`make_data` calls the external `ethabi` encoder on the token list
`(Uint decryption_time, Bytes g1r, Bytes g2r, Array of Bytes alphas)` for the
function `sendTimeLockTransaction`.  Modelled from the spec: the payload is
encoded per the call-encoding format of the external contract, i.e. the standard
Ethereum ABI: a 4-byte selector, then a head of one value word and three offset
words, then the dynamic tails; a dynamic byte string is a 32-byte big-endian
length word followed by the bytes zero-padded to a 32-byte boundary; a dynamic
array is a length word followed by element offsets (relative to the end of that
length word) and the element tails.  Bytes are naturals; words are 32-byte
big-endian naturals below `256^32`. -/

/-- Big-endian byte string of fixed width `w` for `n % 256^w`. -/
def beBytes : Nat → Nat → List Nat
  | 0, _ => []
  | w+1, n => beBytes w (n / 256) ++ [n % 256]

/-- Value of a big-endian byte string. -/
def beVal (l : List Nat) : Nat := l.foldl (fun acc b => acc * 256 + b) 0

/-- Length of a byte string padded up to a 32-byte boundary. -/
def padLen (n : Nat) : Nat := ((n + 31) / 32) * 32

/-- A byte string zero-padded to a 32-byte boundary. -/
def padded (l : List Nat) : List Nat := l ++ List.replicate (padLen l.length - l.length) 0

/-- ABI encoding of a dynamic byte string: length word, then padded contents. -/
def encBytes (l : List Nat) : List Nat := beBytes 32 l.length ++ padded l

/-- Total encoded size of a list of dynamic byte strings (32-byte length word
plus padded contents, each). -/
def encSizes : List (List Nat) → Nat
  | [] => 0
  | l :: t => (32 + padLen l.length) + encSizes t

/-- The element-offset words of a dynamic `bytes[]`: element `i` points at
`base + encSizes (first i elements)` where `base` is the width of the offset
block itself. -/
def encArrHeads (base : Nat) : List (List Nat) → List Nat
  | [] => []
  | l :: t => beBytes 32 base ++ encArrHeads (base + (32 + padLen l.length)) t

/-- The concatenated element tails of a dynamic `bytes[]`. -/
def encArrTails : List (List Nat) → List Nat
  | [] => []
  | l :: t => encBytes l ++ encArrTails t

/-- ABI encoding of a dynamic `bytes[]`: length word, offset words, tails. -/
def encArray (arr : List (List Nat)) : List Nat :=
  beBytes 32 arr.length ++ (encArrHeads (32 * arr.length) arr ++ encArrTails arr)

/-- ABI encoding of the argument tuple
`(uint256 decryptionTime, bytes g1r, bytes g2r, bytes[] alphas)`:
head = value word and three tail offsets (the head is 4 words = 128 bytes),
then the three dynamic tails in order. -/
def abiEncode (d : Nat) (b1 b2 : List Nat) (arr : List (List Nat)) : List Nat :=
  beBytes 32 d ++
    (beBytes 32 128 ++
      (beBytes 32 (128 + (32 + padLen b1.length)) ++
        (beBytes 32 (128 + (32 + padLen b1.length) + (32 + padLen b2.length)) ++
          (encBytes b1 ++ (encBytes b2 ++ encArray arr)))))

/-- Embedding of `make_data` on the token list built by `send_time_lock_message`:
`func.encode_input` prepends the 4-byte function selector (a Keccak digest of
the signature, treated as an opaque 4-byte string here) to the tuple encoding. -/
def make_data (selector : List Nat) (d : Nat) (b1 b2 : List Nat)
    (arr : List (List Nat)) : List Nat :=
  selector ++ abiEncode d b1 b2 arr

/-- The 32-byte big-endian word of `p` starting at byte offset `i`. -/
def wordAt (p : List Nat) (i : Nat) : Nat := beVal ((p.drop i).take 32)

/-- Read a dynamic byte string of `p` whose length word sits at offset `off`. -/
def decodeBytesAt (p : List Nat) (off : Nat) : List Nat :=
  (p.drop (off + 32)).take (wordAt p off)

/-- ABI decoder for the transcript payload: skip the selector, read the value
word and the three offsets, follow them to the two byte strings, then read the
array length and follow each element offset. -/
def decode_input (data : List Nat) : Nat × List Nat × List Nat × List (List Nat) :=
  let p := data.drop 4
  let d := wordAt p 0
  let b1 := decodeBytesAt p (wordAt p 32)
  let b2 := decodeBytesAt p (wordAt p 64)
  let off3 := wordAt p 96
  let base := p.drop (off3 + 32)
  let n := wordAt p off3
  (d, b1, b2, (List.range n).map (fun i => decodeBytesAt base (wordAt base (32 * i))))

/-! ## The submission pipeline (`send_time_lock_message`)

The decidable, chain-facing part of `send_time_lock_message` is embedded: the
threshold, the committee resolution, the ABI payload, the nonce passed to
`cryptography::encrypt`, and the transaction envelope.  The group-theoretic
values produced by the missing `cryptography` module (`g1r`, `g2r`, the blinded
share bytes) enter as opaque byte-string parameters; per §4.2 of the spec one
blinded share is produced for each committee agent at evaluation point
`x_i = agent_id`, so the share list is indexed by `evaluationPoints`. -/

/-- The nonce literal `b"000000000001"` passed to `cryptography::encrypt` at
the call site (ASCII bytes of the twelve characters). -/
def sealNonceBytes : List Nat := [48, 48, 48, 48, 48, 48, 48, 48, 48, 48, 48, 49]

/-- The signed transaction envelope assembled by `send_time_lock_message`,
together with the values the run fixed on the way (threshold, resolved
committee, the nonce handed to the symmetric cipher). -/
structure Submission (P : Type) where
  toAddr : Nat
  value : Nat
  gas : Nat
  gasPrice : Nat
  data : List Nat
  nonce : List Nat
  threshold : Nat
  agents : List (Nat × Agent P)
deriving DecidableEq

/-- Embedding of `send_time_lock_message`: compute the threshold, resolve the
committee (divergence and panic propagate), build one blinded share per agent
index, ABI-encode the payload, and assemble the envelope with
`value = 10^16 * 3` wei, `gas = 8000000`, and
`gas_price = network_price * 15 / 10` (the `U256` multiplication panics on
overflow, hence the guard; the division is the integer floor division of
`U256`). -/
def send_time_lock_message (decode : List Nat → Option P) (ch : Chain) (fuel : Nat)
    (contract_address : Nat) (selector : List Nat) (decryption_time n gas_price_net : Nat)
    (g1r g2r : List Nat) (alphaBytes : Nat → List Nat) : Res (Submission P) :=
  match get_agent_list decode ch fuel with
  | .diverge => .diverge
  | .panic => .panic
  | .ok agents =>
      let t := get_threshold n
      let indexes := evaluationPoints agents
      let alphas := indexes.map alphaBytes
      let data := make_data selector decryption_time g1r g2r alphas
      if gas_price_net * 15 < 2 ^ 256 then
        .ok ⟨contract_address, 10 ^ 16 * 3, 8000000, gas_price_net * 15 / 10,
          data, sealNonceBytes, t, agents⟩
      else .panic

/-- The gas price of a submission, when one was produced. -/
def gasPriceOf : Res (Submission P) → Option Nat
  | .ok s => some s.gasPrice
  | _ => none

/-- Chain with an empty committee. -/
def chain0 : Chain := ⟨0, fun _ => 0, fun _ => []⟩

/-- Concrete submission produced on an empty committee (used to instantiate
the envelope theorems). -/
def subEmpty : Submission Nat :=
  ⟨7, 10 ^ 16 * 3, 8000000, 3, make_data [0, 0, 0, 0] 9 [] [] [],
    sealNonceBytes, get_threshold 0, []⟩

/-- Chain with committee size 2 whose slot 0 holds a well-registered agent
(address 5, key bytes all 1) and whose slot 1 holds an agent (address 6) with
different key bytes (all 2). -/
def chainGB : Chain :=
  ⟨2, fun i => if i = 0 then 5 else if i = 1 then 6 else 0,
   fun a => if a = 5 then List.replicate 48 1 else List.replicate 48 2⟩

/-- A decode function that accepts only key bytes starting with 1: on
`chainGB` the slot-0 key decodes and the slot-1 key does not. -/
def decodeSel : List Nat → Option Nat :=
  fun b => if b.head? = some 1 then some 7 else none

/-- `c051` really is the `f32` value of the literal `0.51`: in normalized form
it is `8556380 / 2^24` with a 24-bit significand, `51/100` lies below the next
representable value `8556381 / 2^24`, and strictly closer to `c051` than to that
neighbour (so round-to-nearest sends `0.51` to `c051`). -/
theorem c051_correct :
    2 ^ 23 ≤ 8556380 ∧ 8556380 < 2 ^ 24 ∧
    Dy.val c051 = (8556380 : ℚ) / 2 ^ 24 ∧
    (51 / 100 : ℚ) - Dy.val c051 < (8556381 : ℚ) / 2 ^ 24 - 51 / 100 ∧
    Dy.val c051 ≤ 51 / 100 := by
  norm_num [c051, Dy.val]

/-- Loop invariant of the committee scan: starting below the target size from a
well-formed accumulator, a normal return delivers exactly `committeeSize`
entries, each at a non-zero slot, with `id` and `address` taken from that slot. -/
theorem get_agent_list_aux_ok (decode : List Nat → Option P) (ch : Chain) :
    ∀ fuel agents counter m,
      agents.length ≤ ch.committeeSize →
      (∀ p ∈ agents, ch.slots p.1 ≠ 0 ∧ p.2.id = p.1 ∧ p.2.address = ch.slots p.1) →
      get_agent_list_aux decode ch fuel agents counter = .ok m →
      m.length = ch.committeeSize ∧
      ∀ p ∈ m, ch.slots p.1 ≠ 0 ∧ p.2.id = p.1 ∧ p.2.address = ch.slots p.1 := by
  intro fuel
  induction fuel with
  | zero => intro agents counter m _ _ h; simp [get_agent_list_aux] at h
  | succ fuel ih =>
    intro agents counter m hlen hinv h
    simp only [get_agent_list_aux] at h
    split at h
    · split at h
      · rename_i hlt hnz
        split at h
        · exact Res.noConfusion h
        · rename_i pk hpk
          refine ih _ _ _ ?_ ?_ h
          · simpa using hlt
          · intro p hp
            rcases List.mem_append.mp hp with h1 | h2
            · exact hinv p h1
            · simp only [List.mem_singleton] at h2
              subst h2
              exact ⟨hnz, rfl, rfl⟩
      · exact ih _ _ _ hlen hinv h
    · rename_i hge
      cases h
      exact ⟨Nat.le_antisymm hlen (Nat.le_of_not_lt hge), hinv⟩

/-- When every registered public key decodes, the scan never panics. -/
theorem get_agent_list_aux_no_panic (decode : List Nat → Option P) (ch : Chain)
    (hdec : ∀ i, ch.slots i ≠ 0 → (get_agent_pk decode ch (ch.slots i)).isSome = true) :
    ∀ fuel agents counter,
      get_agent_list_aux decode ch fuel agents counter ≠ .panic := by
  intro fuel
  induction fuel with
  | zero => intro agents counter h; simp [get_agent_list_aux] at h
  | succ fuel ih =>
    intro agents counter h
    simp only [get_agent_list_aux] at h
    split at h
    · split at h
      · rename_i hlt hnz
        split at h
        · rename_i hpk
          have := hdec counter hnz
          rw [hpk] at this
          simp at this
        · exact ih _ _ h
      · exact ih _ _ h
    · exact Res.noConfusion h

/-- If the scan returns normally within `fuel` iterations, then the scanned
window starting at `counter` holds at least the missing number of non-zero
slots. -/
theorem get_agent_list_aux_ok_count (decode : List Nat → Option P) (ch : Chain) :
    ∀ fuel agents counter m,
      get_agent_list_aux decode ch fuel agents counter = .ok m →
      ch.committeeSize ≤ agents.length + nzFrom ch counter fuel := by
  intro fuel
  induction fuel with
  | zero => intro agents counter m h; simp [get_agent_list_aux] at h
  | succ fuel ih =>
    intro agents counter m h
    simp only [get_agent_list_aux] at h
    split at h
    · split at h
      · rename_i hlt hnz
        split at h
        · exact Res.noConfusion h
        · have := ih _ _ _ h
          simp only [List.length_append, List.length_singleton] at this
          simp only [nzFrom, if_pos hnz]
          omega
      · rename_i hlt hnz
        have := ih _ _ _ h
        simp only [nzFrom, if_neg hnz]
        omega
    · rename_i hge
      omega

/-- Progress: if the window `[counter, counter + len)` holds enough non-zero
slots to finish, every key decodes, and there is more fuel than `len`, the scan
returns normally. -/
theorem get_agent_list_aux_progress (decode : List Nat → Option P) (ch : Chain)
    (hdec : ∀ i, ch.slots i ≠ 0 → (get_agent_pk decode ch (ch.slots i)).isSome = true) :
    ∀ len fuel agents counter,
      ch.committeeSize ≤ agents.length + nzFrom ch counter len →
      len < fuel →
      ∃ m, get_agent_list_aux decode ch fuel agents counter = .ok m := by
  intro len
  induction len with
  | zero =>
    intro fuel agents counter hcnt hfuel
    obtain ⟨f, rfl⟩ : ∃ f, fuel = f + 1 := ⟨fuel - 1, by omega⟩
    refine ⟨agents, ?_⟩
    simp only [get_agent_list_aux]
    rw [if_neg]
    simp only [nzFrom] at hcnt
    omega
  | succ len ih =>
    intro fuel agents counter hcnt hfuel
    obtain ⟨f, rfl⟩ : ∃ f, fuel = f + 1 := ⟨fuel - 1, by omega⟩
    by_cases hlt : agents.length < ch.committeeSize
    · by_cases hnz : ch.slots counter ≠ 0
      · have hsome := hdec counter hnz
        obtain ⟨pk, hpk⟩ := Option.isSome_iff_exists.mp hsome
        have hrec := ih f (agents ++ [(counter, ⟨counter, ch.slots counter, pk⟩)]) (counter + 1)
          (by simp only [nzFrom, if_pos hnz] at hcnt; simp; omega) (by omega)
        obtain ⟨m, hm⟩ := hrec
        refine ⟨m, ?_⟩
        simp only [get_agent_list_aux, if_pos hlt, if_pos hnz, hpk]
        exact hm
      · have hrec := ih f agents (counter + 1)
          (by simp only [nzFrom, if_neg hnz] at hcnt; omega) (by omega)
        obtain ⟨m, hm⟩ := hrec
        refine ⟨m, ?_⟩
        simp only [get_agent_list_aux, if_pos hlt, if_neg hnz]
        exact hm
    · refine ⟨agents, ?_⟩
      simp only [get_agent_list_aux, if_neg hlt]

theorem beBytes_length (w n : Nat) : (beBytes w n).length = w := by
  induction w generalizing n with
  | zero => rfl
  | succ w ih => simp [beBytes, ih]

theorem beVal_append_one (l : List Nat) (b : Nat) :
    beVal (l ++ [b]) = beVal l * 256 + b := by
  simp [beVal, List.foldl_append]

theorem beVal_beBytes (w n : Nat) : beVal (beBytes w n) = n % 256 ^ w := by
  induction w generalizing n with
  | zero => simp [beBytes, beVal, Nat.mod_one]
  | succ w ih =>
    rw [beBytes, beVal_append_one, ih]
    have h2 : (256 : Nat) ^ (w + 1) = 256 * 256 ^ w := by ring
    rw [h2, Nat.mod_mul]
    omega

theorem beVal_beBytes_of_lt {w n : Nat} (h : n < 256 ^ w) :
    beVal (beBytes w n) = n := by
  rw [beVal_beBytes, Nat.mod_eq_of_lt h]

theorem padded_length (l : List Nat) : (padded l).length = padLen l.length := by
  have h : l.length ≤ padLen l.length := by unfold padLen; omega
  simp [padded, List.length_replicate]
  omega

theorem encBytes_length (l : List Nat) : (encBytes l).length = 32 + padLen l.length := by
  simp [encBytes, beBytes_length, padded_length]

theorem encArrHeads_length (base : Nat) (arr : List (List Nat)) :
    (encArrHeads base arr).length = 32 * arr.length := by
  induction arr generalizing base with
  | nil => rfl
  | cons l t ih => simp [encArrHeads, beBytes_length, ih]; ring

theorem encArrTails_length (arr : List (List Nat)) :
    (encArrTails arr).length = encSizes arr := by
  induction arr with
  | nil => rfl
  | cons l t ih => simp [encArrTails, encSizes, encBytes_length, ih]

theorem encArrTails_append (a b : List (List Nat)) :
    encArrTails (a ++ b) = encArrTails a ++ encArrTails b := by
  induction a with
  | nil => rfl
  | cons l t ih => simp [encArrTails, ih]

theorem encSizes_append (a b : List (List Nat)) :
    encSizes (a ++ b) = encSizes a + encSizes b := by
  induction a with
  | nil => simp [encSizes]
  | cons l t ih => simp [encSizes, ih]; ring

theorem padLen_le (n : Nat) : padLen n ≤ n + 31 := by
  unfold padLen; omega

theorem le_padLen (n : Nat) : n ≤ padLen n := by
  unfold padLen; omega

theorem encSizes_le (arr : List (List Nat)) :
    encSizes arr ≤ 63 * arr.length + (arr.map List.length).sum := by
  induction arr with
  | nil => simp [encSizes]
  | cons l t ih =>
    have := padLen_le l.length
    simp only [encSizes, List.map_cons, List.sum_cons, List.length_cons]
    omega

/-- Reading the word whose 32 bytes start right after a prefix of matching
length recovers the encoded value. -/
theorem wordAt_encoded {p pre rest : List Nat} {off v : Nat}
    (hp : p = pre ++ (beBytes 32 v ++ rest)) (hoff : off = pre.length)
    (hv : v < 256 ^ 32) : wordAt p off = v := by
  subst hp hoff
  rw [wordAt, List.drop_left, List.take_left' (beBytes_length 32 v),
    beVal_beBytes_of_lt hv]

/-- Reading a dynamic byte string whose encoding starts right after a prefix of
matching length recovers the original bytes. -/
theorem decodeBytesAt_encoded {p pre rest l : List Nat} {off : Nat}
    (hp : p = pre ++ (encBytes l ++ rest)) (hoff : off = pre.length)
    (hl : l.length < 256 ^ 32) : decodeBytesAt p off = l := by
  subst hp hoff
  rw [decodeBytesAt]
  have h1 : pre ++ (encBytes l ++ rest) = pre ++ (beBytes 32 l.length ++ (padded l ++ rest)) := by
    simp [encBytes]
  have hword : wordAt (pre ++ (encBytes l ++ rest)) pre.length = l.length :=
    wordAt_encoded h1 rfl hl
  rw [hword]
  have h2 : pre ++ (encBytes l ++ rest) =
      (pre ++ beBytes 32 l.length) ++ ((l ++ List.replicate (padLen l.length - l.length) 0) ++ rest) := by
    simp [encBytes, padded]
  rw [h2, List.drop_left' (by simp [beBytes_length])]
  rw [List.append_assoc, List.take_left]

theorem wordAt_shift (l1 l2 : List Nat) (k : Nat) :
    wordAt (l1 ++ l2) (l1.length + k) = wordAt l2 k := by
  rw [wordAt, wordAt, List.drop_append]

theorem wordAt_here (v : Nat) (rest : List Nat) (hv : v < 256 ^ 32) :
    wordAt (beBytes 32 v ++ rest) 0 = v := by
  rw [wordAt, List.drop_zero, List.take_left' (beBytes_length 32 v), beVal_beBytes_of_lt hv]

theorem wordAt_skip (l1 l2 : List Nat) (k w : Nat) (hl : l1.length = w) :
    wordAt (l1 ++ l2) (w + k) = wordAt l2 k := by
  subst hl; exact wordAt_shift l1 l2 k

theorem drop_skip (l1 l2 : List Nat) (k w : Nat) (hl : l1.length = w) :
    (l1 ++ l2).drop (w + k) = l2.drop k := by
  subst hl; exact List.drop_append k

theorem decodeBytesAt_here (l rest : List Nat) (hl : l.length < 256 ^ 32) :
    decodeBytesAt (encBytes l ++ rest) 0 = l := by
  have hp : encBytes l ++ rest = [] ++ (encBytes l ++ rest) :=
    (List.nil_append (encBytes l ++ rest)).symm
  exact decodeBytesAt_encoded hp (List.length_nil).symm hl

theorem decodeBytesAt_skip (l1 l2 : List Nat) (k w : Nat) (hl : l1.length = w) :
    decodeBytesAt (l1 ++ l2) (w + k) = decodeBytesAt l2 k := by
  subst hl
  rw [decodeBytesAt, decodeBytesAt, wordAt_shift]
  have h : l1.length + k + 32 = l1.length + (k + 32) := by ring
  rw [h, List.drop_append]

/-- The `i`-th offset word of a `bytes[]` offset block points at
`base + encSizes (first i elements)`. -/
theorem encArrHeads_word (arr : List (List Nat)) :
    ∀ base i rest, i < arr.length → base + encSizes arr < 256 ^ 32 →
      wordAt (encArrHeads base arr ++ rest) (32 * i) = base + encSizes (arr.take i) := by
  induction arr with
  | nil => intro base i rest h _; simp at h
  | cons l t ih =>
    intro base i rest hi hb
    cases i with
    | zero =>
      have h0 : encArrHeads base (l :: t) ++ rest =
          [] ++ (beBytes 32 base ++ (encArrHeads (base + (32 + padLen l.length)) t ++ rest)) := by
        simp [encArrHeads]
      have hblt : base < 256 ^ 32 := by
        simp only [encSizes] at hb; omega
      rw [Nat.mul_zero, wordAt_encoded h0 (by simp) hblt]
      simp [encSizes]
    | succ i =>
      have h0 : encArrHeads base (l :: t) ++ rest =
          beBytes 32 base ++ (encArrHeads (base + (32 + padLen l.length)) t ++ rest) := by
        simp [encArrHeads]
      have h1 : 32 * (i + 1) = (beBytes 32 base).length + 32 * i := by
        simp [beBytes_length]; ring
      rw [h0, h1, wordAt_shift]
      have hb' : (base + (32 + padLen l.length)) + encSizes t < 256 ^ 32 := by
        simp only [encSizes] at hb; omega
      rw [ih _ i rest (by simpa using hi) hb']
      simp [encSizes, List.take]
      ring

/-- Every element of a `bytes[]` contributes its own length (plus its length
word) to the total encoded size. -/
theorem encSizes_mem_le {x : List Nat} {arr : List (List Nat)} (hmem : x ∈ arr) :
    32 + x.length ≤ encSizes arr := by
  induction arr with
  | nil => simp at hmem
  | cons l t ih =>
    rcases List.mem_cons.mp hmem with h1 | h2
    · subst h1
      have := le_padLen x.length
      simp only [encSizes]
      omega
    · have := ih h2
      simp only [encSizes]
      omega

/-- Following the `i`-th offset word of an encoded `bytes[]` recovers the
`i`-th element. -/
theorem encArray_elem (arr : List (List Nat)) (rest : List Nat) (i : Nat)
    (hi : i < arr.length) (hb : 32 * arr.length + encSizes arr < 256 ^ 32) :
    decodeBytesAt (encArrHeads (32 * arr.length) arr ++ (encArrTails arr ++ rest))
        (wordAt (encArrHeads (32 * arr.length) arr ++ (encArrTails arr ++ rest)) (32 * i)) =
      arr.get ⟨i, hi⟩ := by
  have hword := encArrHeads_word arr (32 * arr.length) i (encArrTails arr ++ rest) hi hb
  rw [hword]
  have hdecomp : encArrTails arr =
      encArrTails (arr.take i) ++ (encBytes (arr.get ⟨i, hi⟩) ++ encArrTails (arr.drop (i + 1))) := by
    conv_lhs => rw [← List.take_append_drop i arr]
    rw [encArrTails_append, List.drop_eq_getElem_cons hi]
    simp [encArrTails, List.get_eq_getElem]
  have hp : encArrHeads (32 * arr.length) arr ++ (encArrTails arr ++ rest) =
      (encArrHeads (32 * arr.length) arr ++ encArrTails (arr.take i)) ++
        (encBytes (arr.get ⟨i, hi⟩) ++ (encArrTails (arr.drop (i + 1)) ++ rest)) := by
    rw [hdecomp]
    simp [List.append_assoc]
  have hlenpre : 32 * arr.length + encSizes (arr.take i) =
      (encArrHeads (32 * arr.length) arr ++ encArrTails (arr.take i)).length := by
    simp [encArrHeads_length, encArrTails_length]
  have hlel : (arr.get ⟨i, hi⟩).length < 256 ^ 32 := by
    have := encSizes_mem_le (List.get_mem arr i hi)
    omega
  exact decodeBytesAt_encoded hp hlenpre hlel

/-- ABI round trip of the transcript payload: decoding the calldata built by
`make_data` for `sendTimeLockTransaction` recovers exactly the encoded tuple
`(decryption_time, g1r, g2r, alphas)`.  The size side conditions (value below
`2^256` and total payload far below `2^256` bytes) are satisfied by every
payload the program can build. -/
theorem decode_input_make_data (selector : List Nat) (d : Nat) (b1 b2 : List Nat)
    (arr : List (List Nat)) (hsel : selector.length = 4) (hd : d < 256 ^ 32)
    (hsz : b1.length + b2.length + 96 * arr.length + (arr.map List.length).sum + 512 < 256 ^ 32) :
    decode_input (make_data selector d b1 b2 arr) = (d, b1, b2, arr) := by
  have hpad1 := padLen_le b1.length
  have hpad2 := padLen_le b2.length
  have hsl := encSizes_le arr
  have hdrop4 : (make_data selector d b1 b2 arr).drop 4 = abiEncode d b1 b2 arr :=
    List.drop_left' hsel
  simp only [decode_input, hdrop4]
  have hw0 : wordAt (abiEncode d b1 b2 arr) 0 = d := by
    simp only [abiEncode]
    exact wordAt_here d _ hd
  have hw32 : wordAt (abiEncode d b1 b2 arr) 32 = 128 := by
    simp only [abiEncode]
    rw [show (32 : Nat) = 32 + 0 from rfl, wordAt_skip _ _ _ _ (beBytes_length 32 d)]
    exact wordAt_here _ _ (by omega)
  have hw64 : wordAt (abiEncode d b1 b2 arr) 64 = 128 + (32 + padLen b1.length) := by
    simp only [abiEncode]
    rw [show (64 : Nat) = 32 + (32 + 0) from rfl,
      wordAt_skip _ _ _ _ (beBytes_length 32 d), wordAt_skip _ _ _ _ (beBytes_length 32 128)]
    exact wordAt_here _ _ (by omega)
  have hw96 : wordAt (abiEncode d b1 b2 arr) 96 =
      128 + (32 + padLen b1.length) + (32 + padLen b2.length) := by
    simp only [abiEncode]
    rw [show (96 : Nat) = 32 + (32 + (32 + 0)) from rfl,
      wordAt_skip _ _ _ _ (beBytes_length 32 d), wordAt_skip _ _ _ _ (beBytes_length 32 128),
      wordAt_skip _ _ _ _ (beBytes_length 32 (128 + (32 + padLen b1.length)))]
    exact wordAt_here _ _ (by omega)
  have hb1 : decodeBytesAt (abiEncode d b1 b2 arr) 128 = b1 := by
    simp only [abiEncode]
    rw [show (128 : Nat) = 32 + (32 + (32 + (32 + 0))) from rfl,
      decodeBytesAt_skip _ _ _ _ (beBytes_length 32 d),
      decodeBytesAt_skip _ _ _ _ (beBytes_length 32 128),
      decodeBytesAt_skip _ _ _ _ (beBytes_length 32 (128 + (32 + padLen b1.length))),
      decodeBytesAt_skip _ _ _ _
        (beBytes_length 32 (128 + (32 + padLen b1.length) + (32 + padLen b2.length)))]
    exact decodeBytesAt_here _ _ (by omega)
  have hb2 : decodeBytesAt (abiEncode d b1 b2 arr) (128 + (32 + padLen b1.length)) = b2 := by
    have h0 : abiEncode d b1 b2 arr =
        (beBytes 32 d ++ (beBytes 32 128 ++ (beBytes 32 (128 + (32 + padLen b1.length)) ++
          (beBytes 32 (128 + (32 + padLen b1.length) + (32 + padLen b2.length)) ++
            encBytes b1)))) ++
          (encBytes b2 ++ encArray arr) := by
      simp [abiEncode, List.append_assoc]
    refine decodeBytesAt_encoded h0 ?_ (by omega)
    simp [beBytes_length, encBytes_length]
    ring
  have hn : wordAt (abiEncode d b1 b2 arr)
      (128 + (32 + padLen b1.length) + (32 + padLen b2.length)) = arr.length := by
    have h0 : abiEncode d b1 b2 arr =
        (beBytes 32 d ++ (beBytes 32 128 ++ (beBytes 32 (128 + (32 + padLen b1.length)) ++
          (beBytes 32 (128 + (32 + padLen b1.length) + (32 + padLen b2.length)) ++
            (encBytes b1 ++ encBytes b2))))) ++
          (beBytes 32 arr.length ++ (encArrHeads (32 * arr.length) arr ++ encArrTails arr)) := by
      simp [abiEncode, encArray, List.append_assoc]
    refine wordAt_encoded h0 ?_ (by omega)
    simp [beBytes_length, encBytes_length]
    ring
  have hdropArr : (abiEncode d b1 b2 arr).drop
      (128 + (32 + padLen b1.length) + (32 + padLen b2.length) + 32) =
      encArrHeads (32 * arr.length) arr ++ (encArrTails arr ++ []) := by
    have h0 : abiEncode d b1 b2 arr =
        (beBytes 32 d ++ (beBytes 32 128 ++ (beBytes 32 (128 + (32 + padLen b1.length)) ++
          (beBytes 32 (128 + (32 + padLen b1.length) + (32 + padLen b2.length)) ++
            (encBytes b1 ++ (encBytes b2 ++ beBytes 32 arr.length)))))) ++
          (encArrHeads (32 * arr.length) arr ++ (encArrTails arr ++ [])) := by
      simp [abiEncode, encArray, List.append_assoc]
    rw [h0]
    refine List.drop_left' ?_
    simp [beBytes_length, encBytes_length]
    ring
  rw [hw0, hw32, hw64, hw96, hb1, hb2, hn, hdropArr]
  refine Prod.ext rfl (Prod.ext rfl (Prod.ext rfl ?_))
  simp only
  refine List.ext_get (by simp) ?_
  intro i h1 h2
  have hi : i < arr.length := by simpa using h1
  rw [List.get_eq_getElem, List.getElem_map, List.getElem_range]
  have hmain := encArray_elem arr [] i hi (by omega)
  rw [List.get_eq_getElem] at hmain
  rw [List.get_eq_getElem]
  exact hmain

/-- Every agent in a normal return of the scan carries exactly the public key
its registered bytes decode to (never a default value). -/
theorem get_agent_list_aux_pk (decode : List Nat → Option P) (ch : Chain) :
    ∀ fuel agents counter m,
      (∀ p ∈ agents, ∃ pk, get_agent_pk decode ch (ch.slots p.1) = some pk ∧ p.2.pk = pk) →
      get_agent_list_aux decode ch fuel agents counter = .ok m →
      ∀ p ∈ m, ∃ pk, get_agent_pk decode ch (ch.slots p.1) = some pk ∧ p.2.pk = pk := by
  intro fuel
  induction fuel with
  | zero => intro agents counter m _ h; simp [get_agent_list_aux] at h
  | succ fuel ih =>
    intro agents counter m hinv h
    simp only [get_agent_list_aux] at h
    split at h
    · split at h
      · rename_i hlt hnz
        split at h
        · exact Res.noConfusion h
        · rename_i pk hpk
          refine ih _ _ _ ?_ h
          intro p hp
          rcases List.mem_append.mp hp with h1 | h2
          · exact hinv p h1
          · simp only [List.mem_singleton] at h2
            subst h2
            exact ⟨pk, hpk, rfl⟩
      · exact ih _ _ _ hinv h
    · cases h; exact hinv

/-- If slot `k` is non-zero with undecodable public-key bytes and the window
`[counter, k)` cannot fill the committee (its non-zero slots, added to the
agents already accumulated, stay below `committeeSize`), the scan panics: at
slot `k` itself, or earlier at any preceding undecodable slot — no hypothesis
is made on the slots before `k`, so agents may well be registered on the way. -/
theorem get_agent_list_aux_panic_reach (decode : List Nat → Option P) (ch : Chain) (k : Nat)
    (hnz : ch.slots k ≠ 0)
    (hpk : get_agent_pk decode ch (ch.slots k) = none) :
    ∀ fuel agents counter, counter ≤ k → k < counter + fuel →
      agents.length + nzFrom ch counter (k - counter) < ch.committeeSize →
      get_agent_list_aux decode ch fuel agents counter = .panic := by
  intro fuel
  induction fuel with
  | zero => intro agents counter h1 h2 _; omega
  | succ fuel ih =>
    intro agents counter hck hkf hcnt
    simp only [get_agent_list_aux]
    rw [if_pos (by omega : agents.length < ch.committeeSize)]
    by_cases hc : counter = k
    · subst hc
      rw [if_pos hnz]
      simp [hpk]
    · have hsplit : k - counter = (k - (counter + 1)) + 1 := by omega
      rw [hsplit] at hcnt
      by_cases hz : ch.slots counter ≠ 0
      · rw [if_pos hz]
        simp only [nzFrom, if_pos hz] at hcnt
        cases hdec : get_agent_pk decode ch (ch.slots counter) with
        | none => simp [hdec]
        | some pk =>
            simp only [hdec]
            refine ih (agents ++ [(counter, ⟨counter, ch.slots counter, pk⟩)]) (counter + 1)
              (by omega) (by omega) ?_
            simp only [List.length_append, List.length_singleton]
            omega
      · rw [if_neg hz]
        simp only [nzFrom, if_neg hz] at hcnt
        exact ih agents (counter + 1) (by omega) (by omega) (by omega)

/-- The natural-number form `(51n + 99) / 100` of `spec_threshold` really is
the least integer `m` with `51 n ≤ 100 m`, i.e. the least integer `≥ 0.51 n`. -/
theorem spec_threshold_least (n m : Nat) :
    51 * n ≤ 100 * spec_threshold n ∧ (51 * n ≤ 100 * m → spec_threshold n ≤ m) := by
  unfold spec_threshold
  omega

/-- Claim C1 (code evidence): with one registered agent in slot 0, committee
resolution produces agent id 0 and the secret-sharing evaluation points
(x_i = agent id, per §4.2) therefore contain `x = 0`, the point that holds the
secret `P(0)` — contradicting the claimed positivity of every evaluation
point. -/
theorem c1_zero_evaluation_point :
    get_agent_list decodeAll chain1 2 = .ok [(0, ⟨0, 5, 7⟩)] ∧
      evaluationPoints [(0, (⟨0, 5, 7⟩ : Agent Nat))] = [0] := by decide

/-- Claim C2 (code evidence): every successful run hands the symmetric cipher
the same fixed nonce, the byte literal `b"000000000001"` — for any chain, any
Task parameters, any decryption time; the nonce is never derived from the Task. -/
theorem c2_nonce_fixed (decode : List Nat → Option P) (ch : Chain) (fuel ca : Nat)
    (sel : List Nat) (dt n gp : Nat) (g1r g2r : List Nat) (ab : Nat → List Nat)
    (s : Submission P)
    (h : send_time_lock_message decode ch fuel ca sel dt n gp g1r g2r ab = .ok s) :
    s.nonce = sealNonceBytes := by
  simp only [send_time_lock_message] at h
  split at h
  · exact Res.noConfusion h
  · exact Res.noConfusion h
  · split at h
    · cases h; rfl
    · exact Res.noConfusion h

set_option maxRecDepth 100000 in
theorem c2_nonce_fixed_witness : subEmpty.nonce = sealNonceBytes :=
  c2_nonce_fixed decodeAll chain0 1 7 [0, 0, 0, 0] 9 0 2 [] [] (fun _ => [])
    subEmpty (by decide)

/-- Claim C3 (counterexample): at `n = 257051` the `f32` computation rounds
`0.51 * 257051` below the exact product, so `get_threshold` returns `131096`
while the smallest integer `≥ 0.51 n` is `131097`. -/
theorem c3_counterexample :
    get_threshold 257051 = 131096 ∧ spec_threshold 257051 = 131097 ∧
      get_threshold 257051 ≠ spec_threshold 257051 := by decide

set_option maxRecDepth 1000000 in
/-- Claim C3 (amended): `get_threshold` agrees with the exact rational
threshold `⌈0.51 n⌉` for every committee size up to 1000 — in particular at the
listed examples 1, 3, 10, 100 — but not for every `n` (see the counterexample). -/
theorem c3_amended :
    (∀ n, n ≤ 1000 → get_threshold n = spec_threshold n) ∧
      get_threshold 1 = 1 ∧ get_threshold 3 = 2 ∧ get_threshold 10 = 6 ∧
      get_threshold 100 = 51 := by decide

theorem c3_amended_witness : get_threshold 3 = spec_threshold 3 :=
  c3_amended.1 3 (by norm_num)

/-- Claim C4 (counterexample): at `n = 51` the code returns
`⌈0.51 * 51⌉ = 27`, not `⌊51/2⌋ + 1 = 26` — `ceil(0.51 n)` exceeds the bare
majority for odd `n ≥ 51`. -/
theorem c4_counterexample :
    get_threshold 51 = 27 ∧ 51 / 2 + 1 = 26 ∧ get_threshold 51 ≠ 51 / 2 + 1 := by decide

/-- Claim C4 (amended): for committee sizes `1 ≤ n ≤ 50` the threshold equals
`⌊n/2⌋ + 1`, the smallest quorum strictly exceeding half of `n`. -/
theorem c4_amended : ∀ n, 1 ≤ n → n ≤ 50 → get_threshold n = n / 2 + 1 := by decide

theorem c4_amended_witness : get_threshold 3 = 3 / 2 + 1 :=
  c4_amended 3 (by norm_num) (by norm_num)

/-- Claim C5: committee resolution scans slots from 0 upward, skips zero
addresses without counting them, and a normal return holds exactly
`committeeSize` agents whose ids and addresses come from their (non-zero)
slots; in particular on slots `[addr, zero, addr, zero, addr]` with committee
size 3 it returns exactly the three agents with ids 0, 2, 4. -/
theorem c5_committee_gaps :
    (∀ (Q : Type) (decode : List Nat → Option Q) (ch : Chain) (fuel : Nat)
        (m : List (Nat × Agent Q)),
        get_agent_list decode ch fuel = .ok m →
        m.length = ch.committeeSize ∧
          ∀ p ∈ m, ch.slots p.1 ≠ 0 ∧ p.2.id = p.1 ∧ p.2.address = ch.slots p.1) ∧
      get_agent_list decodeAll chain5 6 =
        .ok [(0, ⟨0, 5, 7⟩), (2, ⟨2, 7, 7⟩), (4, ⟨4, 9, 7⟩)] := by
  constructor
  · intro Q decode ch fuel m h
    exact get_agent_list_aux_ok decode ch fuel [] 0 m (by simp) (by simp) h
  · decide

theorem c5_committee_gaps_witness :
    ([(0, (⟨0, 5, 7⟩ : Agent Nat)), (2, ⟨2, 7, 7⟩), (4, ⟨4, 9, 7⟩)]).length =
        chain5.committeeSize ∧
      ∀ p ∈ [(0, (⟨0, 5, 7⟩ : Agent Nat)), (2, ⟨2, 7, 7⟩), (4, ⟨4, 9, 7⟩)],
        chain5.slots p.1 ≠ 0 ∧ p.2.id = p.1 ∧ p.2.address = chain5.slots p.1 :=
  c5_committee_gaps.1 Nat decodeAll chain5 6 _ c5_committee_gaps.2

/-- Claim C6: ABI round trip — decoding the calldata built by `make_data` for
`sendTimeLockTransaction` with tokens `(decryption_time, R1, R2, shares)`
reproduces exactly the encoded tuple.  Side conditions: the selector is 4
bytes, the value fits a `uint256`, and the total payload is far below `2^256`
bytes — all guaranteed for payloads the program can build. -/
theorem c6_abi_roundtrip (selector : List Nat) (d : Nat) (b1 b2 : List Nat)
    (arr : List (List Nat)) (hsel : selector.length = 4) (hd : d < 256 ^ 32)
    (hsz : b1.length + b2.length + 96 * arr.length + (arr.map List.length).sum + 512 <
      256 ^ 32) :
    decode_input (make_data selector d b1 b2 arr) = (d, b1, b2, arr) :=
  decode_input_make_data selector d b1 b2 arr hsel hd hsz

theorem c6_abi_roundtrip_witness :
    decode_input (make_data [1, 2, 3, 4] 77 [9] [8, 8] [[5], [6, 6]]) =
      (77, [9], [8, 8], [[5], [6, 6]]) :=
  c6_abi_roundtrip [1, 2, 3, 4] 77 [9] [8, 8] [[5], [6, 6]] rfl (by decide) (by decide)

/-- Claim C7 (counterexample): at network gas price 1 wei the envelope carries
gas price `1 * 15 / 10 = 1`, which is not exactly `1.5 × 1 = 1.5` — integer
division floors, so the gas price is not exactly 1.5 times the network price
for odd prices. -/
theorem c7_counterexample :
    gasPriceOf (send_time_lock_message decodeAll chain0 1 7 [0, 0, 0, 0] 9 0 1 [] []
        (fun _ => [])) = some 1 ∧
      ¬((1 : ℚ) = 15 / 10 * 1) := by
  refine ⟨by decide, by norm_num⟩

/-- Claim C7 (amended): every produced envelope has recipient the contract
address, value the fixed stake `3 * 10^16` wei, gas limit the fixed bound
`8000000`, and gas price `⌊network_price * 15 / 10⌋`; the latter equals
exactly 1.5 times the network price precisely when that price is even. -/
theorem c7_amended (decode : List Nat → Option P) (ch : Chain) (fuel ca : Nat)
    (sel : List Nat) (dt n gp : Nat) (g1r g2r : List Nat) (ab : Nat → List Nat)
    (s : Submission P)
    (h : send_time_lock_message decode ch fuel ca sel dt n gp g1r g2r ab = .ok s) :
    s.toAddr = ca ∧ s.value = 10 ^ 16 * 3 ∧ s.gas = 8000000 ∧
      s.gasPrice = gp * 15 / 10 ∧ (gp % 2 = 0 → 2 * s.gasPrice = 3 * gp) := by
  simp only [send_time_lock_message] at h
  split at h
  · exact Res.noConfusion h
  · exact Res.noConfusion h
  · split at h
    · cases h
      refine ⟨rfl, rfl, rfl, rfl, ?_⟩
      intro he
      show 2 * (gp * 15 / 10) = 3 * gp
      omega
    · exact Res.noConfusion h

set_option maxRecDepth 100000 in
theorem c7_amended_witness :
    subEmpty.toAddr = 7 ∧ subEmpty.value = 10 ^ 16 * 3 ∧ subEmpty.gas = 8000000 ∧
      subEmpty.gasPrice = 2 * 15 / 10 ∧ (2 % 2 = 0 → 2 * subEmpty.gasPrice = 3 * 2) :=
  c7_amended decodeAll chain0 1 7 [0, 0, 0, 0] 9 0 2 [] [] (fun _ => [])
    subEmpty (by decide)

/-- Claim C8: a public key that fails to decode is fatal — a normal return
contains only agents whose key bytes decoded (no default is ever substituted),
and an undecodable key at any slot the scan reaches (any non-zero slot `k`
preceded by fewer non-zero slots than the committee needs, regardless of how
many agents were registered from those earlier slots) makes the whole
resolution panic: at `k`, or earlier at a preceding undecodable slot. -/
theorem c8_decode_failure_fatal :
    (∀ (Q : Type) (decode : List Nat → Option Q) (ch : Chain) (fuel : Nat)
        (m : List (Nat × Agent Q)),
        get_agent_list decode ch fuel = .ok m →
        ∀ p ∈ m, ∃ pk, get_agent_pk decode ch (ch.slots p.1) = some pk ∧ p.2.pk = pk) ∧
    (∀ (Q : Type) (decode : List Nat → Option Q) (ch : Chain) (k : Nat),
        ch.slots k ≠ 0 → get_agent_pk decode ch (ch.slots k) = none →
        nzFrom ch 0 k < ch.committeeSize →
        ∀ fuel, k < fuel → get_agent_list decode ch fuel = .panic) := by
  constructor
  · intro Q decode ch fuel m h
    exact get_agent_list_aux_pk decode ch fuel [] 0 m (by simp) h
  · intro Q decode ch k hnz hpk hcnt fuel hkf
    exact get_agent_list_aux_panic_reach decode ch k hnz hpk fuel [] 0 (by omega) (by omega)
      (by simpa using hcnt)

theorem c8_decode_failure_fatal_witness :
    (∀ p ∈ [(0, (⟨0, 5, 7⟩ : Agent Nat)), (2, ⟨2, 7, 7⟩), (4, ⟨4, 9, 7⟩)],
        ∃ pk, get_agent_pk decodeAll chain5 (chain5.slots p.1) = some pk ∧ p.2.pk = pk) ∧
      get_agent_list decodeSel chainGB 3 = .panic ∧
      get_agent_list decodeNone chainBad 3 = .panic := by
  refine ⟨?_, ?_, ?_⟩
  · exact c8_decode_failure_fatal.1 Nat decodeAll chain5 6 _ (by decide)
  · exact c8_decode_failure_fatal.2 Nat decodeSel chainGB 1 (by decide) (by decide)
      (by decide) 3 (by decide)
  · exact c8_decode_failure_fatal.2 Nat decodeNone chainBad 0 (by decide) (by decide)
      (by decide) 3 (by decide)

set_option maxRecDepth 10000 in
/-- Claim C9 (counterexample): on a chain holding a single non-zero slot in
total whose public key does not decode, with committee size 2, the scan does
not increment the counter forever — it terminates with a panic at the first
iteration (and at every larger fuel). -/
theorem c9_counterexample :
    chainBad.committeeSize = 2 ∧ nzFrom chainBad 0 100 = 1 ∧
      get_agent_list decodeNone chainBad 1 = .panic ∧
      get_agent_list decodeNone chainBad 5 = .panic := by decide

/-- Claim C9 (amended): provided every registered public key decodes,
`get_agent_list` returns normally for some fuel iff some finite slot prefix
holds at least `committeeSize` non-zero addresses, and with fewer than
`committeeSize` non-zero slots in every prefix it diverges at every fuel.  A
decode failure instead aborts the scan (see the counterexample). -/
theorem c9_amended :
    ∀ (Q : Type) (decode : List Nat → Option Q) (ch : Chain),
      (∀ i, ch.slots i ≠ 0 → (get_agent_pk decode ch (ch.slots i)).isSome = true) →
      ((∃ fuel m, get_agent_list decode ch fuel = .ok m) ↔
        ∃ N, ch.committeeSize ≤ nzFrom ch 0 N) ∧
      ((∀ N, nzFrom ch 0 N < ch.committeeSize) →
        ∀ fuel, get_agent_list decode ch fuel = .diverge) := by
  intro Q decode ch hdec
  constructor
  · constructor
    · rintro ⟨fuel, m, h⟩
      exact ⟨fuel, by simpa using get_agent_list_aux_ok_count decode ch fuel [] 0 m h⟩
    · rintro ⟨N, hN⟩
      obtain ⟨m, hm⟩ := get_agent_list_aux_progress decode ch hdec N (N + 1) [] 0
        (by simpa using hN) (by omega)
      exact ⟨N + 1, m, hm⟩
  · intro hlt fuel
    cases hres : get_agent_list decode ch fuel with
    | ok m =>
      have hc := get_agent_list_aux_ok_count decode ch fuel [] 0 m hres
      have h2 := hlt fuel
      simp at hc
      omega
    | panic => exact absurd hres (get_agent_list_aux_no_panic decode ch hdec fuel [] 0)
    | diverge => rfl

theorem c9_amended_witness :
    ((∃ fuel m, get_agent_list decodeAll chain1 fuel = .ok m) ↔
      ∃ N, chain1.committeeSize ≤ nzFrom chain1 0 N) ∧
    ((∀ N, nzFrom chain1 0 N < chain1.committeeSize) →
      ∀ fuel, get_agent_list decodeAll chain1 fuel = .diverge) :=
  c9_amended Nat decodeAll chain1 (by intro i hi; simp [chain1, get_agent_pk, decodeAll])

/-- Claim C10: `get_threshold 0 = 0`, and an empty committee is not rejected —
with `committeeSize = 0` the scan immediately returns the empty committee and
the pipeline assembles and would submit a transaction with an empty share list
and quorum zero; no stage checks `n ≥ 1`. -/
theorem c10_empty_committee :
    get_threshold 0 = 0 ∧
    ∀ (Q : Type) (decode : List Nat → Option Q) (ch : Chain) (fuel ca : Nat)
      (sel : List Nat) (dt gp : Nat) (g1r g2r : List Nat) (ab : Nat → List Nat),
      ch.committeeSize = 0 → 0 < fuel → gp * 15 < 2 ^ 256 →
      send_time_lock_message decode ch fuel ca sel dt 0 gp g1r g2r ab =
        .ok ⟨ca, 10 ^ 16 * 3, 8000000, gp * 15 / 10,
          make_data sel dt g1r g2r [], sealNonceBytes, get_threshold 0, []⟩ := by
  refine ⟨by decide, ?_⟩
  intro Q decode ch fuel ca sel dt gp g1r g2r ab hcs hfuel hgp
  obtain ⟨f, rfl⟩ : ∃ f, fuel = f + 1 := ⟨fuel - 1, by omega⟩
  have hlist : get_agent_list decode ch (f + 1) = .ok [] := by
    simp [get_agent_list, get_agent_list_aux, hcs]
  simp only [send_time_lock_message, hlist]
  rw [if_pos hgp]
  rfl

set_option maxRecDepth 100000 in
theorem c10_empty_committee_witness :
    send_time_lock_message decodeAll chain0 1 7 [0, 0, 0, 0] 9 0 2 [] [] (fun _ => []) =
      .ok ⟨7, 10 ^ 16 * 3, 8000000, 2 * 15 / 10,
        make_data [0, 0, 0, 0] 9 [] [] [], sealNonceBytes, get_threshold 0, []⟩ :=
  c10_empty_committee.2 Nat decodeAll chain0 1 7 [0, 0, 0, 0] 9 2 [] [] (fun _ => [])
    rfl (by decide) (by decide)

end TimeLock
